import Mathlib

/-!
# screm: the sound-trigger playback pipeline of `main.go`

A shallow embedding of `main.go`: the sound catalog built by `GetSounds`, the
authorization check `isAuthorized`, the chat handler `HandleOnPrivateMessage`
and the playback routine `Play` with its decoder dispatch `DecodeFile`.

Conventions.
* A Go string is the list of its runes (`GoString`).  Every character the
  program inspects (the command mark, the dot, the path separator) is ASCII,
  so scanning runes and scanning bytes agree.
* Package-level state of the Go program (`sounds`, the viper settings, the
  speaker) and the files the process holds open are passed explicitly.
* A call that can panic returns an `Outcome`.
* What lives outside the program (the file system, the four decoders of the
  beep library, the rune table behind `strings.ToLower`) is a parameter.
-/

namespace Screm

/-- A Go string, as the list of its runes. -/
abbrev GoString := List Char

/-! ## Library functions called by `main.go` -/

/-- Lower-casing of one ASCII rune, the fast path of `strings.ToLower`. -/
def asciiLower (c : Char) : Char :=
  if 'A' ≤ c ∧ c ≤ 'Z' then Char.ofNat (c.toNat + 32) else c

/-- The function `strings.ToLower`: it maps every rune through the rune table
`lr` (`unicode.ToLower` in Go). -/
def ToLower (lr : Char → Char) (s : GoString) : GoString :=
  s.map lr

/-- The function `strings.HasPrefix`. -/
def HasPrefix (s pre : GoString) : Bool :=
  pre.isPrefixOf s

/-- The function `strings.HasSuffix`. -/
def HasSuffix (s suffix : GoString) : Bool :=
  suffix.isSuffixOf s

/-- The function `strings.TrimPrefix`: `s` without the leading `pre`, or `s`
itself when it does not start with `pre`. -/
def TrimPrefix (s pre : GoString) : GoString :=
  if HasPrefix s pre then s.drop pre.length else s

/-- The function `strings.TrimSuffix`: `s` without the trailing `suffix`, or
`s` itself when it does not end with `suffix`. -/
def TrimSuffix (s suffix : GoString) : GoString :=
  if HasSuffix s suffix then s.take (s.length - suffix.length) else s

/-- The path separator of `os.IsPathSeparator` (Unix). -/
def IsPathSeparator (c : Char) : Bool :=
  c == '/'

/-- The loop of `filepath.Ext`, run over the reversed path: `seen` holds the
runes already passed, in path order. -/
def Ext.scan : List Char → List Char → GoString
  | [], _ => []
  | c :: rest, seen =>
    if IsPathSeparator c then []
    else if c == '.' then c :: seen
    else Ext.scan rest (c :: seen)

/-- The function `filepath.Ext`: the suffix beginning at the final dot of the
final element of the path, empty when that element has no dot. -/
def Ext (path : GoString) : GoString :=
  Ext.scan path.reverse []

/-- The elements of a path, split at every separator. -/
def pathElements : GoString → List GoString
  | [] => [[]]
  | c :: cs =>
    if IsPathSeparator c then [] :: pathElements cs
    else
      match pathElements cs with
      | [] => [[c]]
      | e :: es => (c :: e) :: es

/-- One step of `filepath.Clean` on the stack of kept elements (top first):
empty and dot elements are dropped, a dot-dot element removes the element
before it when there is one to remove. -/
def Clean.step (rooted : Bool) (stack : List GoString) (e : GoString) : List GoString :=
  if e = [] ∨ e = ['.'] then stack
  else if e = ['.', '.'] then
    match stack with
    | [] => if rooted then [] else [e]
    | top :: below => if top = ['.', '.'] then e :: stack else below
  else e :: stack

/-- The function `filepath.Clean` (Unix). -/
def Clean (path : GoString) : GoString :=
  let rooted := HasPrefix path ['/']
  let kept := ((pathElements path).foldl (Clean.step rooted) []).reverse
  let body := List.intercalate ['/'] kept
  if rooted then '/' :: body
  else if body = [] then ['.'] else body

/-- The function `filepath.Join`: the elements from the first non-empty one on,
joined by the separator and cleaned; the empty string when all are empty. -/
def Join (elem : List GoString) : GoString :=
  match elem.dropWhile (fun e => e.isEmpty) with
  | [] => []
  | es => Clean (List.intercalate ['/'] es)

/-- The function `funk.FindString`: the first element satisfying the predicate
and `true`, or the empty string and `false`. -/
def FindString : List GoString → (GoString → Bool) → GoString × Bool
  | [], _ => ([], false)
  | s :: rest, p => if p s then (s, true) else FindString rest p

/-- An `error` value: one produced outside `main.go`, or one made by
`fmt.Errorf` with `%w` around a cause. -/
inductive GoError where
  | external (code : Nat)
  | wrapped (text : String) (arg : GoString) (cause : GoError)
  deriving DecidableEq, Repr

/-! ## Package-level declarations -/

/-- The constant `soundsDir`. -/
def soundsDir : GoString := "sounds".toList

/-- The variable `rate`, the sample rate of the speaker. -/
def rate : Int := 44100

/-- The variable `availableCommands`. -/
def availableCommands : List GoString := ["ding".toList]

/-- The variable `sounds`: a Go map from name to path, kept as an association
list with at most one pair per key. -/
abbrev Catalog := List (GoString × GoString)

/-- The map read `v, ok := sounds[k]`. -/
def Catalog.index (m : Catalog) (k : GoString) : Option GoString :=
  List.lookup k m

/-- The map write `sounds[k] = v`: a pair already stored under `k` is replaced. -/
def Catalog.assign (m : Catalog) (k v : GoString) : Catalog :=
  (k, v) :: m.filter (fun e => e.1 != k)

/-- The settings `main.go` reads through viper. -/
structure Config where
  twitch_username : GoString
  twitch_authorized_users : List GoString
  deriving DecidableEq, Repr

/-! ## Authorization -/

/-- The `for ... range allAuthorizedUsers` loop of `isAuthorized`. -/
def isAuthorized.loop (lr : Char → Char) (user : GoString) : List GoString → Bool
  | [] => false
  | authorizedUser :: rest =>
    if user = ToLower lr authorizedUser then true
    else isAuthorized.loop lr user rest

/-- The function `isAuthorized`. -/
def isAuthorized (lr : Char → Char) (cfg : Config) (user : GoString) : Bool :=
  let user := ToLower lr user
  if user = ToLower lr cfg.twitch_username then true
  else
    let allAuthorizedUsers := cfg.twitch_authorized_users
    if allAuthorizedUsers.length = 0 then true
    else isAuthorized.loop lr user allAuthorizedUsers

/-! ## The sound catalog -/

/-- The part of `fs.FileInfo` the program reads. -/
structure FileInfo where
  Name : GoString
  IsDir : Bool
  deriving DecidableEq, Repr

/-- The arguments of one call `filepath.Walk` makes to its function.  When
`err` is set the function of `GetSounds` returns before reading `info`. -/
structure WalkCall where
  path : GoString
  info : FileInfo
  err : Option GoError
  deriving DecidableEq, Repr

/-- A file tree without read errors; the children of a directory are listed in
the order of the walk (by name). -/
inductive FsNode where
  | file (name : GoString)
  | dir (name : GoString) (children : List FsNode)

/-- The name of a node. -/
def FsNode.name : FsNode → GoString
  | .file n => n
  | .dir n _ => n

mutual
/-- The calls `filepath.Walk` makes on a readable tree found at `path`: the
node itself, then every child at `Join(path, name)`, depth first. -/
def walkCalls (path : GoString) : FsNode → List WalkCall
  | .file n => [⟨path, ⟨n, false⟩, none⟩]
  | .dir n children => ⟨path, ⟨n, true⟩, none⟩ :: walkChildren path children
/-- The calls for the children of the directory at `path`. -/
def walkChildren (path : GoString) : List FsNode → List WalkCall
  | [] => []
  | c :: cs => walkCalls (Join [path, c.name]) c ++ walkChildren path cs
end

/-- The function literal `GetSounds` passes to `filepath.Walk`, on the catalog
`sounds`. -/
def walkFunc (sounds : Catalog) (path : GoString) (info : FileInfo) (err : Option GoError) :
    Option GoError × Catalog :=
  if path = soundsDir then (none, sounds)
  else
    match err with
    | some e => (some (.wrapped "cannot walk into %s: %w" soundsDir e), sounds)
    | none =>
      let filename := info.Name
      (none, Catalog.assign sounds (TrimSuffix filename (Ext filename)) (Join [soundsDir, filename]))

/-- The driver `filepath.Walk`: the function is called on each entry in turn
and the first error it returns ends the walk. -/
def Walk (fn : Catalog → GoString → FileInfo → Option GoError → Option GoError × Catalog) :
    List WalkCall → Catalog → Option GoError × Catalog
  | [], sounds => (none, sounds)
  | c :: rest, sounds =>
    match fn sounds c.path c.info c.err with
    | (some e, sounds1) => (some e, sounds1)
    | (none, sounds1) => Walk fn rest sounds1

/-- The function `GetSounds`, on the calls the walk of `soundsDir` makes. -/
def GetSounds (calls : List WalkCall) (sounds : Catalog) : Option GoError × Catalog :=
  Walk walkFunc calls sounds

/-- The key `GetSounds` stores an entry under. -/
def soundKey (filename : GoString) : GoString :=
  TrimSuffix filename (Ext filename)

/-- The catalog after the function of `GetSounds` has stored the entry of one
call: the write `sounds[key] = filepath.Join(soundsDir, filename)`. -/
def storeEntry (sounds : Catalog) (c : WalkCall) : Catalog :=
  Catalog.assign sounds (soundKey c.info.Name) (Join [soundsDir, c.info.Name])

/-- The keys of a catalog. -/
def Catalog.keys (m : Catalog) : List GoString :=
  m.map Prod.fst

/-! ## Decoding and playback -/

/-- How a call ends: it returns a value, or it panics. -/
inductive Outcome (α : Type) where
  | returned (value : α)
  | panicked (reason : String)
  deriving DecidableEq, Repr

/-- The four decoders of the beep library. -/
inductive Codec where
  | flac
  | wav
  | mp3
  | vorbis
  deriving DecidableEq, Repr

/-- The struct `beep.Format`; `beep.SampleRate` is an `int`. -/
structure Format where
  SampleRate : Int
  NumChannels : Nat
  Precision : Nat
  deriving DecidableEq, Repr

/-- An open `os.File`, named by the path it was opened at. -/
structure File where
  path : GoString
  deriving DecidableEq, Repr

/-- The streamers `Play` builds.  The arguments of `resample` are those of
`beep.Resample(quality, old, new, s)`, in that order: the stream `s` is taken
to run at rate `old` and is converted to rate `new`. -/
inductive Streamer where
  | decoded (codec : Codec) (f : File)
  | resample (quality : Nat) (old new : Int) (s : Streamer)
  | callback
  | seq (first second : Streamer)
  deriving DecidableEq, Repr

/-- The function `beep.Resample(quality, old, new, s)`, which is
`ResampleRatio(quality, float64(old)/float64(new), s)`: it panics when the
quality is outside 1..64 and when the ratio is infinite or not a number, that
is when `new` is 0. -/
def Resample (quality : Nat) (old new : Int) (s : Streamer) : Outcome Streamer :=
  if quality < 1 ∨ 64 < quality then .panicked "resample: invalid quality"
  else if new = 0 then .panicked "resample: invalid ratio"
  else .returned (Streamer.resample quality old new s)

/-- What lies outside the program: whether `os.Open` fails on a path, given the
files the process holds open (the descriptor table is finite); what each
decoder makes of an open file; whether a decoder closes the file it was given
when it rejects it; and what closing a stream returns. -/
structure Env where
  osOpen : List File → GoString → Option GoError
  decode : Codec → File → Except GoError Format
  closesOnError : Codec → Bool
  close : File → Option GoError

/-- The decoders of beep on a rejected file: `wav.Decode` and `flac.Decode`
close it, `mp3.Decode` and `vorbis.Decode` leave it open. -/
def beepClosesOnError : Codec → Bool
  | .flac => true
  | .wav => true
  | .mp3 => false
  | .vorbis => false

/-- Log levels of logrus used by the program. -/
inductive Level where
  | trace
  | debug
  | info
  | error
  deriving DecidableEq, Repr

/-- An argument of a log line. -/
inductive LogArg where
  | str (s : GoString)
  | num (n : Int)
  deriving DecidableEq, Repr

/-- One log line. -/
structure LogEntry where
  level : Level
  text : String
  args : List LogArg
  deriving DecidableEq, Repr

/-- The state the program acts on: the streams handed to `speaker.Play`, the
files closed through `streamer.Close()`, the log lines written (all oldest
first), the files opened by `os.Open` and not closed since (newest first), and
the record of the paths `Play` was called with. -/
structure World where
  speaker : List Streamer
  closed : List File
  log : List LogEntry
  openFiles : List File
  playCalls : List GoString
  deriving DecidableEq, Repr

/-- Writing one log line. -/
def World.logf (w : World) (level : Level) (text : String) (args : List LogArg) : World :=
  { w with log := w.log ++ [⟨level, text, args⟩] }

/-- One decoder applied to the open file `f`, with the files held open
afterwards: on success the stream keeps `f` open; on rejection `f` stays open
unless the decoder itself closed it (`DecodeFile` never does). -/
def decodeWith (env : Env) (codec : Codec) (f : File) (files : List File) :
    Except GoError (Streamer × Format) × List File :=
  match env.decode codec f with
  | .error err => (.error err, if env.closesOnError codec then files.erase f else files)
  | .ok fmt => (.ok (Streamer.decoded codec f, fmt), files)

/-- The function `DecodeFile`, on the files the process holds open. -/
def DecodeFile (env : Env) (path : GoString) (files : List File) :
    Except GoError (Streamer × Format) × List File :=
  match env.osOpen files path with
  | some err => (.error err, files)
  | none =>
    let f : File := ⟨path⟩
    let files := f :: files
    if HasSuffix path ".flac".toList then decodeWith env .flac f files
    else if HasSuffix path ".wav".toList then decodeWith env .wav f files
    else if HasSuffix path ".mp3".toList then decodeWith env .mp3 f files
    else decodeWith env .vorbis f files

/-- The function `Play`.  The receive `<-done` is the point where the stream
handed to the speaker has run to its end; on a normal return the world is the
one after `streamer.Close()`. -/
def Play (env : Env) (path : GoString) (w : World) : Outcome (Option GoError) × World :=
  let w := { w with playCalls := w.playCalls ++ [path] }
  match DecodeFile env path w.openFiles with
  | (.error err, files) =>
    (.returned (some (.wrapped "cannot decode file [%s]: %w" path err)),
      { w with openFiles := files })
  | (.ok (streamer, fmt), files) =>
    let w := { w with openFiles := files }
    let sw : Outcome Streamer × World :=
      if fmt.SampleRate ≠ rate then
        (Resample 4 rate fmt.SampleRate streamer,
          w.logf .trace "resampling sound: speaker rate [%d], file rate [%d]"
            [.num rate, .num fmt.SampleRate])
      else (.returned streamer, w)
    match sw with
    | (.panicked reason, w) => (.panicked reason, w)
    | (.returned s, w) =>
      let w := w.logf .info "playing [%s] with bitrate as [%d]" [.str path, .num fmt.SampleRate]
      let w := { w with speaker := w.speaker ++ [Streamer.seq s Streamer.callback] }
      let w := { w with closed := w.closed ++ [File.mk path],
                        openFiles := w.openFiles.erase (File.mk path) }
      (.returned (env.close (File.mk path)), w)

/-- The function `StartSound`. -/
def StartSound (env : Env) (w : World) : Outcome (Option GoError) × World :=
  Play env (Join [soundsDir, "startup.wav".toList]) w

/-! ## The chat handler -/

/-- The fields of `twitch.PrivateMessage` the handler reads. -/
structure PrivateMessage where
  UserName : GoString
  Message : GoString
  deriving DecidableEq, Repr

/-- The command token the handler derives from a message. -/
def commandOf (lr : Char → Char) (text : GoString) : GoString :=
  TrimPrefix (ToLower lr text) ['!']

/-- The function `HandleOnPrivateMessage`. -/
def HandleOnPrivateMessage (lr : Char → Char) (env : Env) (cfg : Config) (sounds : Catalog)
    (message : PrivateMessage) (w : World) : Outcome Unit × World :=
  let w := w.logf .trace "received message [%s] from [%s]"
    [.str message.Message, .str message.UserName]
  if !isAuthorized lr cfg message.UserName then
    (.returned (),
      w.logf .trace "user [%s] is not authorized to play a sound" [.str message.UserName])
  else
    let command := commandOf lr message.Message
    let found := FindString availableCommands (fun s => s == command)
    if !found.2 then
      (.returned (), w.logf .trace "unhandled [%s]" [.str command])
    else
      match Catalog.index sounds command with
      | none =>
        (.returned (), w.logf .debug "user [%s] wanted to play unknow sound: [%s]"
          [.str message.UserName, .str command])
      | some v =>
        let w := w.logf .info "[%s] ask to play [%s]" [.str message.UserName, .str command]
        match Play env v w with
        | (.panicked reason, w1) => (.panicked reason, w1)
        | (.returned (some _), w1) =>
          (.returned (), w1.logf .error "cannot play sound [%s]" [.str v])
        | (.returned none, w1) => (.returned (), w1)

/-- The error-level lines of a log. -/
def errorLines (w : World) : List LogEntry :=
  w.log.filter (fun e => e.level == Level.error)

/-- The command token as the specification derives it: strip one leading
command mark, then lower-case the remainder. -/
def tokenBySpec (lr : Char → Char) (text : GoString) : GoString :=
  ToLower lr (TrimPrefix text ['!'])

/-! ## Sample data -/

/-- A sounds directory holding `applause.mp3` and `ding.wav`. -/
def sampleTree : FsNode :=
  .dir "sounds".toList [.file "applause.mp3".toList, .file "ding.wav".toList]

/-- The catalog `GetSounds` builds from `sampleTree`. -/
def sampleCatalog : Catalog :=
  (GetSounds (walkCalls soundsDir sampleTree) []).2

/-- Settings with owner `streamer` and allow-list `alice`. -/
def sampleConfig : Config :=
  ⟨"streamer".toList, ["alice".toList]⟩

/-- A sounds directory holding the directory `sub`, which holds `x.wav`. -/
def nestedTree : FsNode :=
  .dir "sounds".toList [.dir "sub".toList [.file "x.wav".toList]]

/-- A sounds directory holding the directory `sub`, which holds `ding.mp3` and
`ding.wav`. -/
def nestedTwinTree : FsNode :=
  .dir "sounds".toList [.dir "sub".toList [.file "ding.mp3".toList, .file "ding.wav".toList]]

/-- A sounds directory holding `a.tar.gz`. -/
def archiveTree : FsNode :=
  .dir "sounds".toList [.file "a.tar.gz".toList]

/-- A sounds directory holding `ding.mp3` and `ding.wav`. -/
def twinTree : FsNode :=
  .dir "sounds".toList [.file "ding.mp3".toList, .file "ding.wav".toList]

/-- An environment where every file opens and decodes at 44100 Hz. -/
def sampleEnv : Env :=
  ⟨fun _ _ => none, fun _ _ => .ok ⟨44100, 2, 2⟩, beepClosesOnError, fun _ => none⟩

/-- An environment where every file opens and decodes at 22050 Hz. -/
def lowRateEnv : Env :=
  ⟨fun _ _ => none, fun _ _ => .ok ⟨22050, 2, 2⟩, beepClosesOnError, fun _ => none⟩

/-- An environment where every file opens and decodes to a format of rate 0. -/
def zeroRateEnv : Env :=
  ⟨fun _ _ => none, fun _ _ => .ok ⟨0, 2, 2⟩, beepClosesOnError, fun _ => none⟩

/-- An environment whose process may hold one sound file open at a time
(`os.Open` fails with error 24, too many open files, beyond that), where
`sounds/broken.mp3` opens and is rejected by its decoder, and every other file
decodes at 44100 Hz. -/
def leakyEnv : Env :=
  ⟨fun files _ => if 1 ≤ files.length then some (.external 24) else none,
   fun _ f => if f.path = "sounds/broken.mp3".toList then .error (.external 1)
     else .ok ⟨44100, 2, 2⟩,
   beepClosesOnError,
   fun _ => none⟩

/-- The world before any message. -/
def emptyWorld : World :=
  ⟨[], [], [], [], []⟩

/-! ## Theorems: authorization -/

theorem isAuthorized_loop_iff (lr : Char → Char) (user : GoString) (allow : List GoString) :
    isAuthorized.loop lr user allow = true ↔ ∃ a ∈ allow, user = ToLower lr a := by
  induction allow with
  | nil => simp [isAuthorized.loop]
  | cons a rest ih =>
    unfold isAuthorized.loop
    by_cases h : user = ToLower lr a
    · simp [h]
    · simp [h, ih]

/-- C1: `isAuthorized` returns true exactly when the lowered username equals
the lowered owner identity, or the allow-list is empty, or the lowered username
equals the lowered form of some allow-list entry; so the owner is authorized
whatever the list holds, everyone is authorized on an empty list, and a
non-owner without a match in a non-empty list gets false. -/
theorem isAuthorized_spec (lr : Char → Char) (cfg : Config) (user : GoString) :
    (isAuthorized lr cfg user = true ↔
      (ToLower lr user = ToLower lr cfg.twitch_username ∨
        cfg.twitch_authorized_users = [] ∨
        ∃ a ∈ cfg.twitch_authorized_users, ToLower lr user = ToLower lr a)) ∧
    (ToLower lr user = ToLower lr cfg.twitch_username → isAuthorized lr cfg user = true) ∧
    (cfg.twitch_authorized_users = [] → isAuthorized lr cfg user = true) ∧
    (ToLower lr user ≠ ToLower lr cfg.twitch_username →
      cfg.twitch_authorized_users ≠ [] →
      (∀ a ∈ cfg.twitch_authorized_users, ToLower lr user ≠ ToLower lr a) →
      isAuthorized lr cfg user = false) := by
  have key : isAuthorized lr cfg user = true ↔
      (ToLower lr user = ToLower lr cfg.twitch_username ∨
        cfg.twitch_authorized_users = [] ∨
        ∃ a ∈ cfg.twitch_authorized_users, ToLower lr user = ToLower lr a) := by
    unfold isAuthorized
    by_cases h1 : ToLower lr user = ToLower lr cfg.twitch_username
    · simp [h1]
    · by_cases h2 : cfg.twitch_authorized_users = []
      · simp [h2]
      · have h3 : cfg.twitch_authorized_users.length ≠ 0 := by
          simpa [List.length_eq_zero] using h2
        simp only [h1, h2, h3, if_false, false_or]
        exact isAuthorized_loop_iff lr _ _
  refine ⟨key, fun h => key.2 (Or.inl h), fun h => key.2 (Or.inr (Or.inl h)), ?_⟩
  intro h1 h2 h3
  cases hb : isAuthorized lr cfg user with
  | false => rfl
  | true =>
    rcases key.1 hb with h | h | ⟨a, ha, h⟩
    · exact absurd h h1
    · exact absurd h h2
    · exact absurd h (h3 a ha)

/-- C1, at sample inputs: the owner in another case passes a list that omits
them, `bob` fails against the list `alice`, `ALICE` passes. -/
theorem isAuthorized_spec_witness :
    isAuthorized asciiLower sampleConfig "Streamer".toList = true ∧
    isAuthorized asciiLower sampleConfig "bob".toList = false ∧
    isAuthorized asciiLower sampleConfig "ALICE".toList = true :=
  ⟨(isAuthorized_spec asciiLower sampleConfig "Streamer".toList).2.1 (by decide),
   (isAuthorized_spec asciiLower sampleConfig "bob".toList).2.2.2
     (by decide) (by decide) (by decide),
   (isAuthorized_spec asciiLower sampleConfig "ALICE".toList).1.2
     (Or.inr (Or.inr ⟨"alice".toList, by decide, by decide⟩))⟩

/-! ## Theorems: decoding and playback -/

theorem not_hasSuffix_of_hasSuffix (path s t : GoString) (hs : HasSuffix path s = true)
    (hlen : t.length ≤ s.length) (hne : HasSuffix s t = false) : HasSuffix path t = false := by
  unfold HasSuffix at *
  cases ht : t.isSuffixOf path with
  | false => rfl
  | true =>
    have h1 : s <:+ path := List.isSuffixOf_iff_suffix.1 hs
    have h2 : t <:+ path := List.isSuffixOf_iff_suffix.1 ht
    have h3 : t <:+ s := List.suffix_of_suffix_length_le h2 h1 hlen
    rw [List.isSuffixOf_iff_suffix.2 h3] at hne
    exact absurd hne (by decide)

theorem Ext_scan_plain (a rest seen : List Char)
    (ha : ∀ c ∈ a, c ≠ '/' ∧ c ≠ '.') :
    Ext.scan (a ++ rest) seen = Ext.scan rest (a.reverse ++ seen) := by
  induction a generalizing seen with
  | nil => rfl
  | cons c cs ih =>
    have hc := ha c (List.mem_cons_self _ _)
    have hcs : ∀ d ∈ cs, d ≠ '/' ∧ d ≠ '.' := fun d hd => ha d (List.mem_cons_of_mem _ hd)
    have hstep : Ext.scan (c :: (cs ++ rest)) seen = Ext.scan (cs ++ rest) (c :: seen) := by
      simp [Ext.scan, IsPathSeparator, hc.1, hc.2]
    rw [List.cons_append, hstep, ih _ hcs]
    simp

theorem Ext_append_dot (pre t : GoString) (ht : ∀ c ∈ t, c ≠ '/' ∧ c ≠ '.') :
    Ext (pre ++ '.' :: t) = '.' :: t := by
  unfold Ext
  have hrev : ∀ c ∈ t.reverse, c ≠ '/' ∧ c ≠ '.' := fun c hc => ht c (List.mem_reverse.1 hc)
  rw [List.reverse_append, List.reverse_cons, List.append_assoc, Ext_scan_plain _ _ _ hrev]
  simp [Ext.scan, IsPathSeparator]

theorem Ext_ne_nil_of_hasSuffix (path t : GoString) (ht : ∀ c ∈ t, c ≠ '/' ∧ c ≠ '.')
    (h : HasSuffix path ('.' :: t) = true) : Ext path ≠ [] := by
  obtain ⟨pre, hpre⟩ := List.isSuffixOf_iff_suffix.1 h
  rw [← hpre, Ext_append_dot pre t ht]
  simp

/-- C7: for an openable path `DecodeFile` picks its decoder from the suffix of
the path alone, case-sensitively and in this order: `.flac` gives the FLAC
decoder, else `.wav` the WAV decoder, else `.mp3` the MP3 decoder, and every
other path (an upper-case `.WAV`, a path without extension, any other ending)
the Vorbis decoder; and for each path exactly one decoder is the one every
environment sees applied. -/
theorem DecodeFile_dispatch (path : GoString) :
    (∀ (env : Env) (files : List File), env.osOpen files path = none →
      (HasSuffix path ".flac".toList = true →
        DecodeFile env path files = decodeWith env .flac ⟨path⟩ (⟨path⟩ :: files)) ∧
      (HasSuffix path ".flac".toList = false → HasSuffix path ".wav".toList = true →
        DecodeFile env path files = decodeWith env .wav ⟨path⟩ (⟨path⟩ :: files)) ∧
      (HasSuffix path ".flac".toList = false → HasSuffix path ".wav".toList = false →
        HasSuffix path ".mp3".toList = true →
        DecodeFile env path files = decodeWith env .mp3 ⟨path⟩ (⟨path⟩ :: files)) ∧
      (HasSuffix path ".flac".toList = false → HasSuffix path ".wav".toList = false →
        HasSuffix path ".mp3".toList = false →
        DecodeFile env path files = decodeWith env .vorbis ⟨path⟩ (⟨path⟩ :: files)) ∧
      (HasSuffix path ".WAV".toList = true →
        DecodeFile env path files = decodeWith env .vorbis ⟨path⟩ (⟨path⟩ :: files)) ∧
      (Ext path = [] →
        DecodeFile env path files = decodeWith env .vorbis ⟨path⟩ (⟨path⟩ :: files))) ∧
    (∃! codec : Codec, ∀ (env : Env) (files : List File), env.osOpen files path = none →
      DecodeFile env path files = decodeWith env codec ⟨path⟩ (⟨path⟩ :: files)) := by
  have hflac : ∀ (env : Env) (files : List File), env.osOpen files path = none →
      HasSuffix path ".flac".toList = true →
      DecodeFile env path files = decodeWith env .flac ⟨path⟩ (⟨path⟩ :: files) := by
    intro env files ho h; simp only [DecodeFile, ho, h, if_true]
  have hwav : ∀ (env : Env) (files : List File), env.osOpen files path = none →
      HasSuffix path ".flac".toList = false → HasSuffix path ".wav".toList = true →
      DecodeFile env path files = decodeWith env .wav ⟨path⟩ (⟨path⟩ :: files) := by
    intro env files ho h1 h2
    simp only [DecodeFile, ho, h1, h2, if_true, if_false, Bool.false_eq_true]
  have hmp3 : ∀ (env : Env) (files : List File), env.osOpen files path = none →
      HasSuffix path ".flac".toList = false → HasSuffix path ".wav".toList = false →
      HasSuffix path ".mp3".toList = true →
      DecodeFile env path files = decodeWith env .mp3 ⟨path⟩ (⟨path⟩ :: files) := by
    intro env files ho h1 h2 h3
    simp only [DecodeFile, ho, h1, h2, h3, if_true, if_false, Bool.false_eq_true]
  have hvor : ∀ (env : Env) (files : List File), env.osOpen files path = none →
      HasSuffix path ".flac".toList = false → HasSuffix path ".wav".toList = false →
      HasSuffix path ".mp3".toList = false →
      DecodeFile env path files = decodeWith env .vorbis ⟨path⟩ (⟨path⟩ :: files) := by
    intro env files ho h1 h2 h3
    simp only [DecodeFile, ho, h1, h2, h3, if_true, if_false, Bool.false_eq_true]
  refine ⟨fun env files ho =>
    ⟨hflac env files ho, hwav env files ho, hmp3 env files ho, hvor env files ho, ?_, ?_⟩, ?_⟩
  · intro hW
    have hF : HasSuffix path ".flac".toList = false := by
      cases h : HasSuffix path ".flac".toList with
      | false => rfl
      | true =>
        have hc := not_hasSuffix_of_hasSuffix path ".flac".toList ".WAV".toList h
          (by decide) (by decide)
        rw [hW] at hc
        exact absurd hc (by decide)
    exact hvor env files ho hF
      (not_hasSuffix_of_hasSuffix path ".WAV".toList ".wav".toList hW (by decide) (by decide))
      (not_hasSuffix_of_hasSuffix path ".WAV".toList ".mp3".toList hW (by decide) (by decide))
  · intro hext
    have hno : ∀ t : GoString, (∀ c ∈ t, c ≠ '/' ∧ c ≠ '.') →
        HasSuffix path ('.' :: t) = false := by
      intro t ht
      cases h : HasSuffix path ('.' :: t) with
      | false => rfl
      | true => exact absurd hext (Ext_ne_nil_of_hasSuffix path t ht h)
    exact hvor env files ho (hno "flac".toList (by decide)) (hno "wav".toList (by decide))
      (hno "mp3".toList (by decide))
  · -- the decoder is read off an environment whose decoders all succeed
    have hsep : ∀ c d : Codec,
        decodeWith sampleEnv c ⟨path⟩ [⟨path⟩] = decodeWith sampleEnv d ⟨path⟩ [⟨path⟩] →
        c = d := by
      intro c d h
      simp [decodeWith, sampleEnv] at h
      exact h
    have hopen : sampleEnv.osOpen [] path = none := rfl
    cases h1 : HasSuffix path ".flac".toList with
    | true =>
      refine ⟨.flac, fun env files ho => hflac env files ho h1, fun d hd => ?_⟩
      exact hsep _ _ ((hd sampleEnv [] hopen).symm.trans (hflac sampleEnv [] hopen h1))
    | false =>
      cases h2 : HasSuffix path ".wav".toList with
      | true =>
        refine ⟨.wav, fun env files ho => hwav env files ho h1 h2, fun d hd => ?_⟩
        exact hsep _ _ ((hd sampleEnv [] hopen).symm.trans (hwav sampleEnv [] hopen h1 h2))
      | false =>
        cases h3 : HasSuffix path ".mp3".toList with
        | true =>
          refine ⟨.mp3, fun env files ho => hmp3 env files ho h1 h2 h3, fun d hd => ?_⟩
          exact hsep _ _
            ((hd sampleEnv [] hopen).symm.trans (hmp3 sampleEnv [] hopen h1 h2 h3))
        | false =>
          refine ⟨.vorbis, fun env files ho => hvor env files ho h1 h2 h3, fun d hd => ?_⟩
          exact hsep _ _
            ((hd sampleEnv [] hopen).symm.trans (hvor sampleEnv [] hopen h1 h2 h3))

/-- C7, at sample paths: `sounds/ding.wav` goes to the WAV decoder,
`sounds/DING.WAV` and `sounds/ding` to the Vorbis decoder. -/
theorem DecodeFile_dispatch_witness :
    DecodeFile sampleEnv "sounds/ding.wav".toList [] =
      decodeWith sampleEnv .wav ⟨"sounds/ding.wav".toList⟩ [⟨"sounds/ding.wav".toList⟩] ∧
    DecodeFile sampleEnv "sounds/DING.WAV".toList [] =
      decodeWith sampleEnv .vorbis ⟨"sounds/DING.WAV".toList⟩ [⟨"sounds/DING.WAV".toList⟩] ∧
    DecodeFile sampleEnv "sounds/ding".toList [] =
      decodeWith sampleEnv .vorbis ⟨"sounds/ding".toList⟩ [⟨"sounds/ding".toList⟩] :=
  ⟨((DecodeFile_dispatch "sounds/ding.wav".toList).1 sampleEnv [] rfl).2.1
      (by decide) (by decide),
   ((DecodeFile_dispatch "sounds/DING.WAV".toList).1 sampleEnv [] rfl).2.2.2.2.1 (by decide),
   ((DecodeFile_dispatch "sounds/ding".toList).1 sampleEnv [] rfl).2.2.2.2.2 (by decide)⟩

@[simp] theorem logf_playCalls (w : World) (l : Level) (t : String) (a : List LogArg) :
    (w.logf l t a).playCalls = w.playCalls := rfl

@[simp] theorem logf_speaker (w : World) (l : Level) (t : String) (a : List LogArg) :
    (w.logf l t a).speaker = w.speaker := rfl

@[simp] theorem logf_closed (w : World) (l : Level) (t : String) (a : List LogArg) :
    (w.logf l t a).closed = w.closed := rfl

@[simp] theorem logf_openFiles (w : World) (l : Level) (t : String) (a : List LogArg) :
    (w.logf l t a).openFiles = w.openFiles := rfl

theorem errorLines_logf (w : World) (l : Level) (t : String) (a : List LogArg)
    (h : l ≠ Level.error) : errorLines (w.logf l t a) = errorLines w := by
  cases l <;> simp_all [errorLines, World.logf, List.filter_append]

theorem errorLines_logf_error (w : World) (t : String) (a : List LogArg) :
    errorLines (w.logf .error t a) = errorLines w ++ [⟨.error, t, a⟩] := by
  simp [errorLines, World.logf, List.filter_append]

/-- The files a failed `DecodeFile` leaves open: when `os.Open` fails, those
held before; when the decoder rejects the file, the new file is added unless
the decoder closed it. -/
theorem DecodeFile_files (env : Env) (path : GoString) (files : List File) :
    (DecodeFile env path files).2 = files ∨
      (DecodeFile env path files).2 = ⟨path⟩ :: files := by
  unfold DecodeFile
  cases env.osOpen files path with
  | some e => exact Or.inl rfl
  | none =>
    have hd : ∀ codec, (decodeWith env codec ⟨path⟩ (⟨path⟩ :: files)).2 = files ∨
        (decodeWith env codec ⟨path⟩ (⟨path⟩ :: files)).2 = ⟨path⟩ :: files := by
      intro codec
      unfold decodeWith
      cases env.decode codec ⟨path⟩ with
      | error e =>
        cases env.closesOnError codec <;> simp
      | ok fmt => exact Or.inr rfl
    simp only
    split
    · exact hd _
    · split
      · exact hd _
      · split
        · exact hd _
        · exact hd _

/-- What `Play` does when `DecodeFile` fails: it returns the wrapped error, and
the world changes only in the files left open by `DecodeFile` and in the record
of calls. -/
theorem Play_error (env : Env) (path : GoString) (w : World) (e : GoError) (files : List File)
    (h : DecodeFile env path w.openFiles = (.error e, files)) :
    Play env path w =
      (.returned (some (.wrapped "cannot decode file [%s]: %w" path e)),
        { w with openFiles := files, playCalls := w.playCalls ++ [path] }) := by
  unfold Play
  simp only [h]

/-- What `Play` does after a successful decode at a rate other than 0: the
decoded stream, wrapped by `beep.Resample(4, rate, format.SampleRate, streamer)`
exactly when the rate of the file differs from `rate`, is handed to the speaker
followed by the completion callback, and the stream is closed. -/
theorem Play_ok (env : Env) (path : GoString) (w : World) (st : Streamer) (fmt : Format)
    (files : List File) (h : DecodeFile env path w.openFiles = (.ok (st, fmt), files))
    (h0 : fmt.SampleRate ≠ 0) :
    (Play env path w).1 = .returned (env.close ⟨path⟩) ∧
    (Play env path w).2.speaker = w.speaker ++
      [Streamer.seq (if fmt.SampleRate ≠ rate then Streamer.resample 4 rate fmt.SampleRate st
        else st) Streamer.callback] ∧
    (Play env path w).2.closed = w.closed ++ [⟨path⟩] ∧
    (Play env path w).2.openFiles = files.erase ⟨path⟩ ∧
    errorLines (Play env path w).2 = errorLines w := by
  unfold Play
  simp only [h]
  by_cases hr : fmt.SampleRate = rate
  · simp [hr, World.logf, errorLines, List.filter_append]
  · simp [hr, h0, Resample, World.logf, errorLines, List.filter_append]

/-- What `Play` does after a decode at rate 0: `beep.Resample` panics, and
nothing reaches the speaker. -/
theorem Play_panic (env : Env) (path : GoString) (w : World) (st : Streamer) (fmt : Format)
    (files : List File) (h : DecodeFile env path w.openFiles = (.ok (st, fmt), files))
    (h0 : fmt.SampleRate = 0) :
    (Play env path w).1 = .panicked "resample: invalid ratio" ∧
    (Play env path w).2.speaker = w.speaker := by
  unfold Play
  simp only [h]
  simp [h0, Resample, rate]

@[simp] theorem Play_playCalls (env : Env) (path : GoString) (w : World) :
    (Play env path w).2.playCalls = w.playCalls ++ [path] := by
  rcases hd : DecodeFile env path w.openFiles with ⟨r, files⟩
  cases r with
  | error e => rw [Play_error env path w e files hd]
  | ok p =>
    obtain ⟨st, fmt⟩ := p
    unfold Play
    simp only [hd]
    by_cases hr : fmt.SampleRate = rate
    · simp [hr, World.logf]
    · by_cases h0 : fmt.SampleRate = 0
      · simp [h0, Resample, rate]
      · simp [hr, h0, Resample, World.logf]

/-- A file ending in `.mp3` that opens and is rejected by a decoder that does
not close it stays open after `Play` has returned its error. -/
theorem Play_reject_leaves_open (env : Env) (path : GoString) (w : World) (e : GoError)
    (hopen : env.osOpen w.openFiles path = none)
    (h1 : HasSuffix path ".flac".toList = false) (h2 : HasSuffix path ".wav".toList = false)
    (h3 : HasSuffix path ".mp3".toList = true)
    (hrej : env.decode .mp3 ⟨path⟩ = .error e) (hkeep : env.closesOnError .mp3 = false) :
    Play env path w =
      (.returned (some (.wrapped "cannot decode file [%s]: %w" path e)),
        { w with openFiles := ⟨path⟩ :: w.openFiles, playCalls := w.playCalls ++ [path] }) := by
  apply Play_error
  simp only [DecodeFile, hopen, h1, h2, h3, decodeWith, hrej, hkeep, if_true, if_false,
    Bool.false_eq_true]

/-- A file decoded to a format of rate 0 makes `Play` panic inside
`beep.Resample`, before anything is handed to the speaker. -/
theorem Play_zero_rate :
    (Play zeroRateEnv "sounds/ding.wav".toList emptyWorld).1 =
      .panicked "resample: invalid ratio" ∧
    (Play zeroRateEnv "sounds/ding.wav".toList emptyWorld).2.speaker = [] := by
  constructor <;> decide

/-- C5, where the code departs from it: for a file decoded at 22050 Hz `Play`
hands the speaker `beep.Resample(4, 44100, 22050, stream)`, whose second and
third arguments are the old and the new rate, so the wrapper converts from
44100 to the rate of the file, and not from the rate of the file to 44100. -/
theorem Play_resample_direction :
    (Play lowRateEnv "sounds/ding.wav".toList emptyWorld).2.speaker =
      [Streamer.seq
        (Streamer.resample 4 44100 22050 (Streamer.decoded .wav ⟨"sounds/ding.wav".toList⟩))
        Streamer.callback] ∧
    (Play lowRateEnv "sounds/ding.wav".toList emptyWorld).2.speaker ≠
      [Streamer.seq
        (Streamer.resample 4 22050 44100 (Streamer.decoded .wav ⟨"sounds/ding.wav".toList⟩))
        Streamer.callback] := by
  constructor <;> decide

/-- C6, where the code departs from it: `sounds/broken.mp3` opens and is
rejected by the MP3 decoder.  `Play` returns the wrapped error and hands nothing
to the speaker, but the file opened by `DecodeFile` is still open afterwards.
In a process that may hold one sound file open, `Play` of `sounds/ding.wav`
succeeds from the start, and fails at `os.Open` after the failed request. -/
theorem Play_decode_failure_leak :
    (Play leakyEnv "sounds/broken.mp3".toList emptyWorld).1 =
      .returned (some (.wrapped "cannot decode file [%s]: %w" "sounds/broken.mp3".toList
        (.external 1))) ∧
    (Play leakyEnv "sounds/broken.mp3".toList emptyWorld).2.speaker = [] ∧
    (Play leakyEnv "sounds/broken.mp3".toList emptyWorld).2.openFiles =
      [⟨"sounds/broken.mp3".toList⟩] ∧
    (Play leakyEnv "sounds/broken.mp3".toList emptyWorld).2.openFiles ≠ emptyWorld.openFiles ∧
    (Play leakyEnv "sounds/ding.wav".toList emptyWorld).1 = .returned none ∧
    (Play leakyEnv "sounds/ding.wav".toList emptyWorld).2.speaker =
      [Streamer.seq (Streamer.decoded .wav ⟨"sounds/ding.wav".toList⟩) Streamer.callback] ∧
    (Play leakyEnv "sounds/ding.wav".toList
      (Play leakyEnv "sounds/broken.mp3".toList emptyWorld).2).1 =
      .returned (some (.wrapped "cannot decode file [%s]: %w" "sounds/ding.wav".toList
        (.external 24))) ∧
    (Play leakyEnv "sounds/ding.wav".toList
      (Play leakyEnv "sounds/broken.mp3".toList emptyWorld).2).2.speaker = [] := by
  refine ⟨by decide, by decide, by decide, by decide, by decide, by decide, by decide, by decide⟩

/-! ## Theorems: the chat handler -/

theorem FindString_snd (xs : List GoString) (command : GoString) :
    (FindString xs (fun s => s == command)).2 = true ↔ command ∈ xs := by
  induction xs with
  | nil => simp [FindString]
  | cons x rest ih =>
    unfold FindString
    by_cases h : x = command
    · simp [h]
    · have h2 : ¬ command = x := fun e => h e.symm
      simp [h, h2, ih]

/-- C2: whenever a gate fails (the user is not authorized, or the command token
is not in `availableCommands`, whatever the catalog holds, or the token has no
catalog entry), `HandleOnPrivateMessage` returns normally, makes no call to
`Play`, hands nothing to the speaker, opens and closes no file and writes no
error line. -/
theorem handler_no_playback (lr : Char → Char) (env : Env) (cfg : Config) (sounds : Catalog)
    (message : PrivateMessage) (w : World)
    (h : isAuthorized lr cfg message.UserName = false ∨
      commandOf lr message.Message ∉ availableCommands ∨
      Catalog.index sounds (commandOf lr message.Message) = none) :
    (HandleOnPrivateMessage lr env cfg sounds message w).1 = .returned () ∧
    (HandleOnPrivateMessage lr env cfg sounds message w).2.playCalls = w.playCalls ∧
    (HandleOnPrivateMessage lr env cfg sounds message w).2.speaker = w.speaker ∧
    (HandleOnPrivateMessage lr env cfg sounds message w).2.closed = w.closed ∧
    (HandleOnPrivateMessage lr env cfg sounds message w).2.openFiles = w.openFiles ∧
    errorLines (HandleOnPrivateMessage lr env cfg sounds message w).2 = errorLines w := by
  unfold HandleOnPrivateMessage
  by_cases hauth : isAuthorized lr cfg message.UserName = true
  · by_cases hfound :
        (FindString availableCommands (fun s => s == commandOf lr message.Message)).2 = true
    · have hmem := (FindString_snd _ _).1 hfound
      rcases h with h | h | h
      · rw [hauth] at h; exact absurd h (by decide)
      · exact absurd hmem h
      · simp [hauth, hfound, h, errorLines_logf]
    · simp [hauth, hfound, errorLines_logf]
  · simp [hauth, errorLines_logf]

/-- C2, at the sample inputs: `!applause` from `bob` under the allow-list
`alice`, and `!unknown` from the owner with a catalog that does hold the key
`unknown`, both return normally and leave the record of `Play` calls and the
speaker empty. -/
theorem handler_no_playback_witness :
    ((HandleOnPrivateMessage asciiLower sampleEnv sampleConfig sampleCatalog
      ⟨"bob".toList, "!applause".toList⟩ emptyWorld).1 = .returned () ∧
     (HandleOnPrivateMessage asciiLower sampleEnv sampleConfig sampleCatalog
      ⟨"bob".toList, "!applause".toList⟩ emptyWorld).2.playCalls = [] ∧
     (HandleOnPrivateMessage asciiLower sampleEnv sampleConfig sampleCatalog
      ⟨"bob".toList, "!applause".toList⟩ emptyWorld).2.speaker = []) ∧
    ((HandleOnPrivateMessage asciiLower sampleEnv sampleConfig
      [("unknown".toList, "sounds/unknown.wav".toList)]
      ⟨"streamer".toList, "!unknown".toList⟩ emptyWorld).1 = .returned () ∧
     (HandleOnPrivateMessage asciiLower sampleEnv sampleConfig
      [("unknown".toList, "sounds/unknown.wav".toList)]
      ⟨"streamer".toList, "!unknown".toList⟩ emptyWorld).2.playCalls = [] ∧
     (HandleOnPrivateMessage asciiLower sampleEnv sampleConfig
      [("unknown".toList, "sounds/unknown.wav".toList)]
      ⟨"streamer".toList, "!unknown".toList⟩ emptyWorld).2.speaker = []) :=
  have hb := handler_no_playback asciiLower sampleEnv sampleConfig sampleCatalog
    ⟨"bob".toList, "!applause".toList⟩ emptyWorld (Or.inl (by decide))
  have hu := handler_no_playback asciiLower sampleEnv sampleConfig
    [("unknown".toList, "sounds/unknown.wav".toList)]
    ⟨"streamer".toList, "!unknown".toList⟩ emptyWorld (Or.inr (Or.inl (by decide)))
  ⟨⟨hb.1, hb.2.1, hb.2.2.1⟩, ⟨hu.1, hu.2.1, hu.2.2.1⟩⟩

theorem asciiLower_mark (c : Char) : asciiLower c = '!' ↔ c = '!' := by
  unfold asciiLower
  split
  · rename_i h
    obtain ⟨h1, h2⟩ := h
    have h1n : 65 ≤ c.toNat := h1
    have h2n : c.toNat ≤ 90 := h2
    have hc : c = Char.ofNat c.toNat := (Char.ofNat_toNat c).symm
    generalize c.toNat = n at h1n h2n hc
    subst hc
    interval_cases n <;> decide
  · exact Iff.rfl

theorem commandOf_eq_tokenBySpec (lr : Char → Char) (hlr : ∀ c, lr c = '!' ↔ c = '!')
    (text : GoString) : commandOf lr text = tokenBySpec lr text := by
  unfold commandOf tokenBySpec TrimPrefix HasPrefix ToLower
  cases text with
  | nil => simp
  | cons c cs =>
    by_cases hc : c = '!'
    · subst hc
      simp [(hlr '!').2 rfl]
    · have hc2 : ¬ '!' = lr c := fun e => hc ((hlr c).1 e.symm)
      have hc3 : ¬ '!' = c := fun e => hc e.symm
      simp [hc2, hc3]

/-- The handler past its three gates: its result is that of `Play` on the
catalog's path, in the world after its two log lines, with an error line added
when `Play` returns an error. -/
theorem handler_after_gates (lr : Char → Char) (env : Env) (cfg : Config) (sounds : Catalog)
    (message : PrivateMessage) (w : World) (v : GoString)
    (hauth : isAuthorized lr cfg message.UserName = true)
    (hcmd : commandOf lr message.Message ∈ availableCommands)
    (hcat : Catalog.index sounds (commandOf lr message.Message) = some v) :
    HandleOnPrivateMessage lr env cfg sounds message w =
      match Play env v ((w.logf .trace "received message [%s] from [%s]"
          [.str message.Message, .str message.UserName]).logf .info "[%s] ask to play [%s]"
          [.str message.UserName, .str (commandOf lr message.Message)]) with
      | (.panicked reason, w1) => (.panicked reason, w1)
      | (.returned (some _), w1) =>
        (.returned (), w1.logf .error "cannot play sound [%s]" [.str v])
      | (.returned none, w1) => (.returned (), w1) := by
  have hfound := (FindString_snd _ _).2 hcmd
  unfold HandleOnPrivateMessage
  simp only [hauth, hfound, hcat, Bool.not_true, Bool.false_eq_true, if_false]

/-- C3: for a message from an authorized user whose token (one leading command
mark stripped, the remainder lower-cased) is in `availableCommands` and is a key
of the catalog, `HandleOnPrivateMessage` calls `Play` exactly once, with the
path `v` the catalog stores for that token.  With `w1` the world after the two
log lines of the handler: the result of the handler is the world `Play env v w1`
leaves, with the outcome of `Play` passed on (an error becomes one error line, a
panic stays a panic); so when `v` decodes (at a rate other than 0) the speaker
receives exactly one more stream, that of the file at `v` followed by the
completion callback, and the stream is closed; when `v` does not decode nothing
reaches the speaker and one error line is written.  The token the code derives
(lower-case first, strip afterwards) is the same token for every message.  The
rune table is any one that maps the command mark, and nothing else, to the
command mark. -/
theorem handler_plays_once (lr : Char → Char) (hlr : ∀ c, lr c = '!' ↔ c = '!')
    (env : Env) (cfg : Config) (sounds : Catalog) (message : PrivateMessage) (w w1 : World)
    (v : GoString)
    (hauth : isAuthorized lr cfg message.UserName = true)
    (hcmd : tokenBySpec lr message.Message ∈ availableCommands)
    (hcat : Catalog.index sounds (tokenBySpec lr message.Message) = some v)
    (hw1 : w1 = (w.logf .trace "received message [%s] from [%s]"
      [.str message.Message, .str message.UserName]).logf .info "[%s] ask to play [%s]"
      [.str message.UserName, .str (tokenBySpec lr message.Message)]) :
    (HandleOnPrivateMessage lr env cfg sounds message w).2.playCalls = w.playCalls ++ [v] ∧
    ((Play env v w1).1 = .returned none →
      HandleOnPrivateMessage lr env cfg sounds message w = (.returned (), (Play env v w1).2)) ∧
    (∀ e, (Play env v w1).1 = .returned (some e) →
      HandleOnPrivateMessage lr env cfg sounds message w =
        (.returned (), (Play env v w1).2.logf .error "cannot play sound [%s]" [.str v])) ∧
    (∀ reason, (Play env v w1).1 = .panicked reason →
      HandleOnPrivateMessage lr env cfg sounds message w =
        (.panicked reason, (Play env v w1).2)) ∧
    (∀ st fmt files, DecodeFile env v w.openFiles = (.ok (st, fmt), files) →
      fmt.SampleRate ≠ 0 →
      (HandleOnPrivateMessage lr env cfg sounds message w).2.speaker = w.speaker ++
        [Streamer.seq (if fmt.SampleRate ≠ rate then
          Streamer.resample 4 rate fmt.SampleRate st else st) Streamer.callback] ∧
      (HandleOnPrivateMessage lr env cfg sounds message w).2.closed = w.closed ++ [⟨v⟩]) ∧
    (∀ e files, DecodeFile env v w.openFiles = (.error e, files) →
      (HandleOnPrivateMessage lr env cfg sounds message w).1 = .returned () ∧
      (HandleOnPrivateMessage lr env cfg sounds message w).2.speaker = w.speaker ∧
      errorLines (HandleOnPrivateMessage lr env cfg sounds message w).2 =
        errorLines w ++ [⟨.error, "cannot play sound [%s]", [.str v]⟩]) ∧
    (∀ text : GoString, commandOf lr text = tokenBySpec lr text) := by
  have htok := commandOf_eq_tokenBySpec lr hlr
  rw [← htok] at hcmd hcat hw1
  have hH := handler_after_gates lr env cfg sounds message w v hauth hcmd hcat
  rw [← hw1] at hH
  have hopen : w1.openFiles = w.openFiles := by rw [hw1]; rfl
  have hspk : w1.speaker = w.speaker := by rw [hw1]; rfl
  have hcl : w1.closed = w.closed := by rw [hw1]; rfl
  have hcalls : w1.playCalls = w.playCalls := by rw [hw1]; rfl
  have herr : errorLines w1 = errorLines w := by
    rw [hw1, errorLines_logf _ _ _ _ (by decide), errorLines_logf _ _ _ _ (by decide)]
  have hpc := Play_playCalls env v w1
  refine ⟨?_, ?_, ?_, ?_, ?_, ?_, htok⟩
  · rw [hH, ← hcalls, ← hpc]
    rcases Play env v w1 with ⟨r, w2⟩
    cases r with
    | panicked reason => rfl
    | returned e => cases e <;> rfl
  · intro hr
    rw [hH]
    rcases hP : Play env v w1 with ⟨r, w2⟩
    rw [hP] at hr
    simp only at hr
    subst hr
    rfl
  · intro e hr
    rw [hH]
    rcases hP : Play env v w1 with ⟨r, w2⟩
    rw [hP] at hr
    simp only at hr
    subst hr
    rfl
  · intro reason hr
    rw [hH]
    rcases hP : Play env v w1 with ⟨r, w2⟩
    rw [hP] at hr
    simp only at hr
    subst hr
    rfl
  · intro st fmt files hd h0
    rw [← hopen] at hd
    obtain ⟨h1, h2, h3, _, _⟩ := Play_ok env v w1 st fmt files hd h0
    rw [hH, ← hspk, ← hcl, ← h2, ← h3]
    rcases hP : Play env v w1 with ⟨r, w2⟩
    cases r with
    | panicked reason => exact ⟨rfl, rfl⟩
    | returned e => cases e <;> exact ⟨rfl, rfl⟩
  · intro e files hd
    rw [← hopen] at hd
    have hP := Play_error env v w1 e files hd
    rw [hH, hP]
    refine ⟨rfl, hspk, ?_⟩
    rw [errorLines_logf_error]
    have : errorLines { w1 with openFiles := files, playCalls := w1.playCalls ++ [v] } =
        errorLines w1 := rfl
    rw [this, herr]

/-- C3, at the sample input: with the catalog built from `ding.wav` and
`applause.mp3`, the owner sending `!ding` causes exactly one call of `Play`,
for `sounds/ding.wav`; the handler returns normally, and the speaker receives
exactly one stream, the decoded `sounds/ding.wav` followed by the callback. -/
theorem handler_plays_once_witness :
    (HandleOnPrivateMessage asciiLower sampleEnv sampleConfig sampleCatalog
      ⟨"streamer".toList, "!ding".toList⟩ emptyWorld).2.playCalls =
      ["sounds/ding.wav".toList] ∧
    (HandleOnPrivateMessage asciiLower sampleEnv sampleConfig sampleCatalog
      ⟨"streamer".toList, "!ding".toList⟩ emptyWorld).1 = .returned () ∧
    (HandleOnPrivateMessage asciiLower sampleEnv sampleConfig sampleCatalog
      ⟨"streamer".toList, "!ding".toList⟩ emptyWorld).2.speaker =
      [Streamer.seq (Streamer.decoded .wav ⟨"sounds/ding.wav".toList⟩) Streamer.callback] ∧
    (HandleOnPrivateMessage asciiLower sampleEnv sampleConfig sampleCatalog
      ⟨"streamer".toList, "!ding".toList⟩ emptyWorld).2.closed =
      [⟨"sounds/ding.wav".toList⟩] :=
  have h := handler_plays_once asciiLower asciiLower_mark sampleEnv sampleConfig sampleCatalog
    ⟨"streamer".toList, "!ding".toList⟩ emptyWorld _ "sounds/ding.wav".toList
    (by decide) (by decide) (by decide) rfl
  have hs := h.2.2.2.2.1 (Streamer.decoded .wav ⟨"sounds/ding.wav".toList⟩) ⟨44100, 2, 2⟩
    [⟨"sounds/ding.wav".toList⟩] (by rfl) (by decide)
  ⟨h.1, by rw [h.2.1 (by decide)], hs.1, hs.2⟩

/-! ## Theorems: the sound catalog -/

theorem lookup_filter_ne (m : Catalog) (k q : GoString) (h : q ≠ k) :
    List.lookup q (m.filter (fun e => e.1 != k)) = List.lookup q m := by
  induction m with
  | nil => rfl
  | cons e rest ih =>
    obtain ⟨a, b⟩ := e
    by_cases hak : a = k
    · subst hak
      have hq : (q == a) = false := by simpa using h
      simp [List.filter, List.lookup, hq, ih]
    · have hak2 : (a != k) = true := by simpa using hak
      simp only [List.filter, hak2, List.lookup]
      rw [ih]

theorem index_assign (m : Catalog) (k v q : GoString) :
    Catalog.index (Catalog.assign m k v) q = if q = k then some v else Catalog.index m q := by
  unfold Catalog.index Catalog.assign
  by_cases h : q = k
  · subst h
    simp [List.lookup]
  · have hq : (q == k) = false := by simpa using h
    simp only [List.lookup, hq, h, if_false]
    exact lookup_filter_ne m k q h

theorem keys_assign (m : Catalog) (k v : GoString) :
    Catalog.keys (Catalog.assign m k v) = k :: (Catalog.keys m).filter (fun a => a != k) := by
  unfold Catalog.keys Catalog.assign
  simp only [List.map_cons, List.cons.injEq, true_and]
  induction m with
  | nil => rfl
  | cons e rest ih =>
    by_cases h : e.1 = k
    · simp [List.filter, h, ih]
    · have h2 : (e.1 != k) = true := by simpa using h
      simp [List.filter, h2, ih]

theorem mem_keys_assign (m : Catalog) (k v q : GoString) :
    q ∈ Catalog.keys (Catalog.assign m k v) ↔ q = k ∨ q ∈ Catalog.keys m := by
  rw [keys_assign]
  by_cases h : q = k
  · simp [h]
  · simp [h]

theorem nodup_keys_assign (m : Catalog) (k v : GoString) (h : (Catalog.keys m).Nodup) :
    (Catalog.keys (Catalog.assign m k v)).Nodup := by
  rw [keys_assign]
  refine List.nodup_cons.2 ⟨?_, h.filter _⟩
  simp [List.mem_filter]

theorem GetSounds_nil (m : Catalog) : GetSounds [] m = (none, m) := rfl

theorem GetSounds_root (c : WalkCall) (rest : List WalkCall) (m : Catalog)
    (h : c.path = soundsDir) : GetSounds (c :: rest) m = GetSounds rest m := by
  simp [GetSounds, Walk, walkFunc, h]

theorem GetSounds_entry (c : WalkCall) (rest : List WalkCall) (m : Catalog)
    (hp : c.path ≠ soundsDir) (he : c.err = none) :
    GetSounds (c :: rest) m = GetSounds rest (storeEntry m c) := by
  simp [GetSounds, Walk, walkFunc, hp, he, storeEntry, soundKey]

theorem GetSounds_failed (c : WalkCall) (rest : List WalkCall) (m : Catalog) (e : GoError)
    (hp : c.path ≠ soundsDir) (he : c.err = some e) :
    GetSounds (c :: rest) m = (some (.wrapped "cannot walk into %s: %w" soundsDir e), m) := by
  simp [GetSounds, Walk, walkFunc, hp, he]

theorem GetSounds_clean (rest : List WalkCall) (m : Catalog)
    (h : ∀ c ∈ rest, c.path ≠ soundsDir ∧ c.err = none) :
    GetSounds rest m = (none, rest.foldl storeEntry m) := by
  induction rest generalizing m with
  | nil => rfl
  | cons c cs ih =>
    have hc := h c (List.mem_cons_self _ _)
    rw [GetSounds_entry c cs m hc.1 hc.2, ih _ (fun d hd => h d (List.mem_cons_of_mem _ hd))]
    rfl

theorem foldl_store_nodup (rest : List WalkCall) (m : Catalog) (h : (Catalog.keys m).Nodup) :
    (Catalog.keys (rest.foldl storeEntry m)).Nodup := by
  induction rest generalizing m with
  | nil => exact h
  | cons c cs ih => exact ih _ (nodup_keys_assign m _ _ h)

theorem foldl_store_mem (rest : List WalkCall) (m : Catalog) (q : GoString) :
    q ∈ Catalog.keys (rest.foldl storeEntry m) ↔
      q ∈ Catalog.keys m ∨ ∃ c ∈ rest, soundKey c.info.Name = q := by
  induction rest generalizing m with
  | nil => simp
  | cons c cs ih =>
    rw [List.foldl_cons, ih, storeEntry, mem_keys_assign]
    constructor
    · rintro ((h | h) | ⟨d, hd, h⟩)
      · exact Or.inr ⟨c, List.mem_cons_self _ _, h.symm⟩
      · exact Or.inl h
      · exact Or.inr ⟨d, List.mem_cons_of_mem _ hd, h⟩
    · rintro (h | ⟨d, hd, h⟩)
      · exact Or.inl (Or.inr h)
      · rcases List.mem_cons.1 hd with hdc | hdc
        · subst hdc
          exact Or.inl (Or.inl h.symm)
        · exact Or.inr ⟨d, hdc, h⟩

theorem foldl_store_index_skip (post : List WalkCall) (m : Catalog) (q : GoString)
    (h : ∀ d ∈ post, soundKey d.info.Name ≠ q) :
    Catalog.index (post.foldl storeEntry m) q = Catalog.index m q := by
  induction post generalizing m with
  | nil => rfl
  | cons c cs ih =>
    rw [List.foldl_cons, ih _ (fun d hd => h d (List.mem_cons_of_mem _ hd)), storeEntry,
      index_assign]
    have hc : q ≠ soundKey c.info.Name := fun e => h c (List.mem_cons_self _ _) e.symm
    simp [hc]

theorem foldl_store_index_last (pre post : List WalkCall) (c : WalkCall) (m : Catalog)
    (h : ∀ d ∈ post, soundKey d.info.Name ≠ soundKey c.info.Name) :
    Catalog.index ((pre ++ c :: post).foldl storeEntry m) (soundKey c.info.Name) =
      some (Join [soundsDir, c.info.Name]) := by
  rw [List.foldl_append, List.foldl_cons, foldl_store_index_skip post _ _ h, storeEntry,
    index_assign]
  simp

/-- The catalog of a scan without errors, stated over the entries the walk
visits below the root (files and directories alike): no error is returned, the
catalog has one pair per key, and its keys are the keys of the entries; when
the keys of the entries are pairwise distinct there are as many pairs as
entries; and the value under a key is `filepath.Join(soundsDir, name)` for the
last entry scanned with that key, which is the path of that entry when it lies
directly in the sounds directory. -/
theorem GetSounds_flat (root : WalkCall) (rest : List WalkCall)
    (hroot : root.path = soundsDir)
    (hrest : ∀ c ∈ rest, c.path ≠ soundsDir ∧ c.err = none) :
    (GetSounds (root :: rest) []).1 = none ∧
    (Catalog.keys (GetSounds (root :: rest) []).2).Nodup ∧
    (∀ q, q ∈ Catalog.keys (GetSounds (root :: rest) []).2 ↔
      ∃ c ∈ rest, soundKey c.info.Name = q) ∧
    ((rest.map (fun c => soundKey c.info.Name)).Nodup →
      (GetSounds (root :: rest) []).2.length = rest.length ∧
      ∀ c ∈ rest, Catalog.index (GetSounds (root :: rest) []).2 (soundKey c.info.Name) =
        some (Join [soundsDir, c.info.Name])) ∧
    (∀ pre c post, rest = pre ++ c :: post →
      (∀ d ∈ post, soundKey d.info.Name ≠ soundKey c.info.Name) →
      Catalog.index (GetSounds (root :: rest) []).2 (soundKey c.info.Name) =
        some (Join [soundsDir, c.info.Name]) ∧
      (c.path = Join [soundsDir, c.info.Name] →
        Catalog.index (GetSounds (root :: rest) []).2 (soundKey c.info.Name) = some c.path)) := by
  have hG : GetSounds (root :: rest) [] = (none, rest.foldl storeEntry []) := by
    rw [GetSounds_root root rest [] hroot, GetSounds_clean rest [] hrest]
  rw [hG]
  have hnd : (Catalog.keys (rest.foldl storeEntry [])).Nodup :=
    foldl_store_nodup rest [] (by simp [Catalog.keys])
  have hmem : ∀ q, q ∈ Catalog.keys (rest.foldl storeEntry []) ↔
      ∃ c ∈ rest, soundKey c.info.Name = q := by
    intro q
    rw [foldl_store_mem]
    simp [Catalog.keys]
  have hlast : ∀ pre c post, rest = pre ++ c :: post →
      (∀ d ∈ post, soundKey d.info.Name ≠ soundKey c.info.Name) →
      Catalog.index (rest.foldl storeEntry []) (soundKey c.info.Name) =
        some (Join [soundsDir, c.info.Name]) := by
    intro pre c post hsplit hpost
    rw [hsplit]
    exact foldl_store_index_last pre post c [] hpost
  refine ⟨rfl, hnd, hmem, ?_, fun pre c post hsplit hpost =>
    ⟨hlast pre c post hsplit hpost, fun hpath => by rw [hpath]; exact hlast pre c post hsplit hpost⟩⟩
  intro hdistinct
  constructor
  · have hperm : List.Perm (Catalog.keys (rest.foldl storeEntry []))
        (rest.map (fun c => soundKey c.info.Name)) := by
      rw [List.perm_ext_iff_of_nodup hnd hdistinct]
      intro q
      rw [hmem q]
      simp
    have hlen := hperm.length_eq
    simpa [Catalog.keys] using hlen
  · intro c hc
    obtain ⟨pre, post, hsplit⟩ := List.append_of_mem hc
    refine hlast pre c post hsplit ?_
    intro d hd heq
    rw [hsplit, List.map_append, List.map_cons] at hdistinct
    have h2 := (List.nodup_append.1 hdistinct).2.1
    have h3 := (List.nodup_cons.1 h2).1
    exact h3 (by rw [← heq]; exact List.mem_map_of_mem (fun c => soundKey c.info.Name) hd)

/-- The flat sample directories: `applause.mp3` and `ding.wav` give a catalog
of two entries, and with `ding.mp3` and `ding.wav` the key `ding` holds the
path of `ding.wav`, scanned last. -/
theorem GetSounds_flat_example :
    (GetSounds (walkCalls soundsDir sampleTree) []).2.length = 2 ∧
    Catalog.index (GetSounds (walkCalls soundsDir twinTree) []).2 "ding".toList =
      some "sounds/ding.wav".toList :=
  ⟨((GetSounds_flat ⟨soundsDir, ⟨"sounds".toList, true⟩, none⟩
      [⟨"sounds/applause.mp3".toList, ⟨"applause.mp3".toList, false⟩, none⟩,
       ⟨"sounds/ding.wav".toList, ⟨"ding.wav".toList, false⟩, none⟩]
      rfl (by decide)).2.2.2.1 (by decide)).1,
   (GetSounds_flat ⟨soundsDir, ⟨"sounds".toList, true⟩, none⟩
      [⟨"sounds/ding.mp3".toList, ⟨"ding.mp3".toList, false⟩, none⟩,
       ⟨"sounds/ding.wav".toList, ⟨"ding.wav".toList, false⟩, none⟩]
      rfl (by decide)).2.2.2.2
      [⟨"sounds/ding.mp3".toList, ⟨"ding.mp3".toList, false⟩, none⟩]
      ⟨"sounds/ding.wav".toList, ⟨"ding.wav".toList, false⟩, none⟩ [] rfl (by decide)
      |>.2 (by decide)⟩

/-- C8, where the code departs from it: in a sounds directory holding `sub`,
which holds `x.wav`, the walk finds the file at `sounds/sub/x.wav`, and
`GetSounds` stores under the key `x` the path `sounds/x.wav`, which is
`filepath.Join(soundsDir, filename)` and not the path of the file. -/
theorem GetSounds_nested_path :
    walkCalls soundsDir nestedTree =
      [⟨"sounds".toList, ⟨"sounds".toList, true⟩, none⟩,
       ⟨"sounds/sub".toList, ⟨"sub".toList, true⟩, none⟩,
       ⟨"sounds/sub/x.wav".toList, ⟨"x.wav".toList, false⟩, none⟩] ∧
    (GetSounds (walkCalls soundsDir nestedTree) []).1 = none ∧
    Catalog.index (GetSounds (walkCalls soundsDir nestedTree) []).2 "x".toList =
      some "sounds/x.wav".toList ∧
    Catalog.index (GetSounds (walkCalls soundsDir nestedTree) []).2 "x".toList ≠
      some "sounds/sub/x.wav".toList := by
  refine ⟨by decide, by decide, by decide, by decide⟩

/-- C9, where the code departs from it.  A sounds directory holding only the
directory `sub` with the file `x.wav` in it contains one regular file, and the
catalog `GetSounds` builds has two entries, one of them for the directory.  In
a sounds directory holding `sub` with `ding.mp3` and `ding.wav` in it, the file
scanned last with the key `ding` is found at `sounds/sub/ding.wav`, and the
entry of `ding` holds `sounds/ding.wav`. -/
theorem GetSounds_nested_count :
    ((walkCalls soundsDir nestedTree).filter (fun c => !c.info.IsDir)).map (fun c => c.path) =
      ["sounds/sub/x.wav".toList] ∧
    (GetSounds (walkCalls soundsDir nestedTree) []).1 = none ∧
    (GetSounds (walkCalls soundsDir nestedTree) []).2.length = 2 ∧
    Catalog.index (GetSounds (walkCalls soundsDir nestedTree) []).2 "sub".toList =
      some "sounds/sub".toList ∧
    ((walkCalls soundsDir nestedTwinTree).filter (fun c => !c.info.IsDir)).map
      (fun c => c.path) = ["sounds/sub/ding.mp3".toList, "sounds/sub/ding.wav".toList] ∧
    (GetSounds (walkCalls soundsDir nestedTwinTree) []).1 = none ∧
    Catalog.index (GetSounds (walkCalls soundsDir nestedTwinTree) []).2 "ding".toList =
      some "sounds/ding.wav".toList ∧
    Catalog.index (GetSounds (walkCalls soundsDir nestedTwinTree) []).2 "ding".toList ≠
      some "sounds/sub/ding.wav".toList := by
  refine ⟨by decide, by decide, by decide, by decide, by decide, by decide, by decide,
    by decide⟩

theorem Ext_scan_shape (rev seen : List Char) :
    Ext.scan rev seen = [] ∨
      ∃ plain rest, rev = plain ++ '.' :: rest ∧ (∀ c ∈ plain, c ≠ '/' ∧ c ≠ '.') ∧
        Ext.scan rev seen = '.' :: (plain.reverse ++ seen) := by
  induction rev generalizing seen with
  | nil => exact Or.inl rfl
  | cons c rest ih =>
    unfold Ext.scan
    by_cases h1 : c = '/'
    · simp [h1, IsPathSeparator]
    · have h1b : IsPathSeparator c = false := by simpa [IsPathSeparator] using h1
      by_cases h2 : c = '.'
      · subst h2
        exact Or.inr ⟨[], rest, rfl, by simp, by simp [h1b]⟩
      · have h3 : (c == '.') = false := by simpa using h2
        simp only [h1b, h3, Bool.false_eq_true, if_false]
        rcases ih (c :: seen) with h | ⟨plain, rest2, hsplit, hplain, h⟩
        · exact Or.inl h
        · refine Or.inr ⟨c :: plain, rest2, by rw [hsplit]; rfl, ?_, by rw [h]; simp⟩
          intro d hd
          rcases List.mem_cons.1 hd with hdc | hdc
          · rw [hdc]; exact ⟨h1, h2⟩
          · exact hplain d hdc

theorem Ext_shape (n : GoString) :
    Ext n = [] ∨ ∃ pre tl, Ext n = '.' :: tl ∧ n = pre ++ '.' :: tl ∧
      (∀ c ∈ tl, c ≠ '/' ∧ c ≠ '.') := by
  rcases Ext_scan_shape n.reverse [] with h | ⟨plain, rest, hsplit, hplain, h⟩
  · exact Or.inl h
  · refine Or.inr ⟨rest.reverse, plain.reverse, by simpa using h, ?_, ?_⟩
    · have h2 := congrArg List.reverse hsplit
      simpa using h2
    · intro c hc
      exact hplain c (List.mem_reverse.1 hc)

theorem Ext_scan_ne_nil (rev seen : List Char) (hsep : '/' ∉ rev) (hdot : '.' ∈ rev) :
    Ext.scan rev seen ≠ [] := by
  induction rev generalizing seen with
  | nil => simp at hdot
  | cons c rest ih =>
    unfold Ext.scan
    have h1 : c ≠ '/' := fun e => hsep (by rw [e]; exact List.mem_cons_self _ _)
    have h1b : IsPathSeparator c = false := by simpa [IsPathSeparator] using h1
    by_cases h2 : c = '.'
    · subst h2
      simp [h1b]
    · have h3 : (c == '.') = false := by simpa using h2
      simp only [h1b, h3, Bool.false_eq_true, if_false]
      refine ih _ (fun hm => hsep (List.mem_cons_of_mem _ hm)) ?_
      rcases List.mem_cons.1 hdot with hd | hd
      · exact absurd hd.symm h2
      · exact hd

theorem Ext_ne_nil_of_dot (k : GoString) (hsep : '/' ∉ k) (hdot : '.' ∈ k) : Ext k ≠ [] :=
  Ext_scan_ne_nil k.reverse [] (fun h => hsep (List.mem_reverse.1 h)) (List.mem_reverse.2 hdot)

theorem TrimSuffix_append (pre e : GoString) : TrimSuffix (pre ++ e) e = pre := by
  unfold TrimSuffix HasSuffix
  have h : e.isSuffixOf (pre ++ e) = true :=
    List.isSuffixOf_iff_suffix.2 (List.suffix_append pre e)
  simp [h]

theorem soundKey_append_Ext (n : GoString) : soundKey n ++ Ext n = n := by
  unfold soundKey
  rcases Ext_shape n with h | ⟨pre, tl, h, hs, _⟩
  · rw [h]
    have := TrimSuffix_append n []
    simp only [List.append_nil] at this
    rw [this, List.append_nil]
  · rw [h]
    nth_rewrite 1 [hs]
    rw [TrimSuffix_append]
    exact hs.symm

theorem Ext_eq_nil_of_no_dot (k : GoString) (h : '.' ∉ k) : Ext k = [] := by
  rcases Ext_shape k with h1 | ⟨pre, tl, _, hs, _⟩
  · exact h1
  · exact absurd (by rw [hs]; simp) h

theorem Ext_soundKey_iff (n : GoString) (hsep : '/' ∉ n) :
    Ext (soundKey n) = [] ↔ n.count '.' ≤ 1 := by
  have happ := soundKey_append_Ext n
  have hsepk : '/' ∉ soundKey n := fun hm => hsep (by rw [← happ]; exact List.mem_append_left _ hm)
  rcases Ext_shape n with h1 | ⟨pre, tl, h1, _, htl⟩
  · rw [h1, List.append_nil] at happ
    rw [happ]
    have hnodot : '.' ∉ n := fun hd => Ext_ne_nil_of_dot n hsep hd h1
    have h0 : n.count '.' = 0 := List.count_eq_zero.2 hnodot
    simp [h1, h0]
  · rw [h1] at happ
    have htl0 : tl.count '.' = 0 := List.count_eq_zero.2 (fun hm => (htl _ hm).2 rfl)
    have hcount : n.count '.' = (soundKey n).count '.' + 1 := by
      conv_lhs => rw [← happ]
      rw [List.count_append, List.count_cons_self, htl0]
    rw [hcount]
    constructor
    · intro hE
      have hnodot : '.' ∉ soundKey n := fun hd => Ext_ne_nil_of_dot _ hsepk hd hE
      have := List.count_eq_zero.2 hnodot
      omega
    · intro hle
      apply Ext_eq_nil_of_no_dot
      have h0 : (soundKey n).count '.' = 0 := by omega
      exact List.count_eq_zero.1 h0

theorem GetSounds_keys (calls : List WalkCall) (m : Catalog) (q : GoString)
    (h : q ∈ Catalog.keys (GetSounds calls m).2) :
    q ∈ Catalog.keys m ∨ ∃ c ∈ calls, q = soundKey c.info.Name := by
  induction calls generalizing m with
  | nil => exact Or.inl h
  | cons c cs ih =>
    by_cases hp : c.path = soundsDir
    · rw [GetSounds_root c cs m hp] at h
      rcases ih m h with h1 | ⟨d, hd, h1⟩
      · exact Or.inl h1
      · exact Or.inr ⟨d, List.mem_cons_of_mem _ hd, h1⟩
    · cases he : c.err with
      | some e =>
        rw [GetSounds_failed c cs m e hp he] at h
        exact Or.inl h
      | none =>
        rw [GetSounds_entry c cs m hp he] at h
        rcases ih _ h with h1 | ⟨d, hd, h1⟩
        · rcases (mem_keys_assign m _ _ q).1 h1 with h2 | h2
          · exact Or.inr ⟨c, List.mem_cons_self _ _, h2⟩
          · exact Or.inl h2
        · exact Or.inr ⟨d, List.mem_cons_of_mem _ hd, h1⟩

/-- C10 as stated fails: after scanning a directory that holds `a.tar.gz` the
catalog has the key `a.tar`, whose extension is `.tar`. -/
theorem catalog_key_with_extension :
    ¬ (∀ k ∈ Catalog.keys (GetSounds (walkCalls soundsDir archiveTree) []).2,
        '/' ∉ k ∧ Ext k = []) := by
  intro h
  have h1 := (h "a.tar".toList (by decide)).2
  exact absurd h1 (by decide)

/-- C10, amended: after `GetSounds` has scanned any directory whose entry names
hold no path separator, no key of the catalog holds a path separator, and every
key is the name of a scanned entry with its final extension removed; the key
carries no extension exactly when that name has at most one dot. -/
theorem catalog_keys_invariant (calls : List WalkCall)
    (hnames : ∀ c ∈ calls, '/' ∉ c.info.Name) :
    ∀ k ∈ Catalog.keys (GetSounds calls []).2,
      '/' ∉ k ∧
      ∃ c ∈ calls, k = soundKey c.info.Name ∧ k ++ Ext c.info.Name = c.info.Name ∧
        (Ext k = [] ↔ c.info.Name.count '.' ≤ 1) := by
  intro k hk
  rcases GetSounds_keys calls [] k hk with h | ⟨c, hc, h⟩
  · simp [Catalog.keys] at h
  · subst h
    have happ := soundKey_append_Ext c.info.Name
    refine ⟨?_, c, hc, rfl, happ, Ext_soundKey_iff c.info.Name (hnames c hc)⟩
    intro hmem
    apply hnames c hc
    rw [← happ]
    exact List.mem_append_left _ hmem

/-- C10 amended, at the sample input: the names of the sample directory hold
no separator, and the keys of its catalog satisfy the invariant. -/
theorem catalog_keys_invariant_witness :
    (∀ c ∈ walkCalls soundsDir sampleTree, '/' ∉ c.info.Name) ∧
    (∀ k ∈ Catalog.keys (GetSounds (walkCalls soundsDir sampleTree) []).2,
      '/' ∉ k ∧
      ∃ c ∈ walkCalls soundsDir sampleTree,
        k = soundKey c.info.Name ∧ k ++ Ext c.info.Name = c.info.Name ∧
        (Ext k = [] ↔ c.info.Name.count '.' ≤ 1)) :=
  ⟨by decide, catalog_keys_invariant (walkCalls soundsDir sampleTree) (by decide)⟩

end Screm
